import Mathlib

/-!
Verification development for the wombat repository: a job-scheduling engine
for periodic data collection (symbol discovery, OHLCV price ingestion) plus
a React dashboard.  The scheduler core (app/scheduler_engine.py and the
collector/persistence layers) is documented in the repository README but its
source is not part of this tree, so those components are modelled from the
specification; the frontend components are embedded directly from their
TypeScript source.
-/

namespace Wombat

/-! ## Frontend: StrategySymbols component
Embedded from src/frontend/src/components/TradingStrategies/StrategySymbols.tsx.
Ids in this component are non-negative integers (mock data uses 1,2,3 and new
ids come from max+1), so they are modelled as Nat.  allocation_ratio is a
TS number entered through a numeric input; it is modelled as a rational. -/

structure StrategySymbol where
  id : Nat
  symbol_id : Nat
  symbol_name : String
  allocation_ratio : ℚ
  is_active : Bool
  deriving DecidableEq, Repr

/-- The mock symbol list the component starts from (mockSymbols in the source). -/
def mockSymbols : List StrategySymbol :=
  [ { id := 1, symbol_id := 101, symbol_name := "KRW-BTC",
      allocation_ratio := (1 : ℚ) / 2, is_active := true },
    { id := 2, symbol_id := 102, symbol_name := "KRW-ETH",
      allocation_ratio := (3 : ℚ) / 10, is_active := true },
    { id := 3, symbol_id := 103, symbol_name := "KRW-XRP",
      allocation_ratio := (1 : ℚ) / 5, is_active := false } ]

/-- handleUpdateRatio from StrategySymbols.tsx: parse the ratio, bail out when
it is below 0 or above 1, otherwise map over the list replacing the
allocation_ratio of every entry whose id matches.  The parseFloat result is
taken as the already-parsed rational argument. -/
def handleUpdateRatio (symbols : List StrategySymbol) (symbolId : Nat)
    (ratio : ℚ) : List StrategySymbol :=
  if ratio < 0 ∨ ratio > 1 then symbols
  else symbols.map (fun s =>
    if s.id = symbolId then { s with allocation_ratio := ratio } else s)

/-- handleAddSymbol from StrategySymbols.tsx: bail out on an empty name
(TS falsy-string check) or a ratio outside [0,1]; otherwise append a new
symbol whose id is Math.max of the existing ids and 0, plus one.  The random
symbol_id is passed in as a parameter. -/
def handleAddSymbol (symbols : List StrategySymbol) (newSymbolName : String)
    (ratio : ℚ) (randSymbolId : Nat) : List StrategySymbol :=
  if newSymbolName = "" then symbols
  else if ratio < 0 ∨ ratio > 1 then symbols
  else
    symbols ++
      [ { id := (symbols.map (fun s => s.id)).foldl max 0 + 1,
          symbol_id := randSymbolId,
          symbol_name := newSymbolName,
          allocation_ratio := ratio,
          is_active := true } ]

/-- handleDeleteSymbol from StrategySymbols.tsx. -/
def handleDeleteSymbol (symbols : List StrategySymbol) (symbolId : Nat) :
    List StrategySymbol :=
  symbols.filter (fun s => s.id ≠ symbolId)

/-! ## Persistence / upsert layer
Modelled from the spec: the Persistence/Upsert Layer of section 4.4 with the
PriceBar row type of section 3 is not in this tree (only its README is), so
its storage is modelled as a list of rows and upsertPriceBars as
insert-or-update keyed by the natural key (symbol_id, timeframe, timestamp). -/

structure PriceBar where
  symbol_id : Nat
  timeframe : String
  timestamp : Nat
  open_price : ℚ
  high : ℚ
  low : ℚ
  close : ℚ
  volume : ℚ
  deriving DecidableEq, Repr

/-- Natural key of a PriceBar row. -/
def PriceBar.natKey (b : PriceBar) : Nat × String × Nat :=
  (b.symbol_id, b.timeframe, b.timestamp)

/-- Modelled from the spec: a single idempotent upsert.  If a row with the
same natural key is stored, it is updated in place; otherwise the row is
inserted. -/
def upsertBar (store : List PriceBar) (b : PriceBar) : List PriceBar :=
  if store.any (fun r => r.natKey = b.natKey) then
    store.map (fun r => if r.natKey = b.natKey then b else r)
  else
    store ++ [b]

/-- Modelled from the spec: upsertPriceBars applies the batch left to right. -/
def upsertPriceBars (store : List PriceBar) (bars : List PriceBar) :
    List PriceBar :=
  bars.foldl upsertBar store

/-- Number of stored rows addressed by a given natural key. -/
def keyCount (store : List PriceBar) (k : Nat × String × Nat) : Nat :=
  (store.filter (fun r => r.natKey = k)).length

/-- The stored rows addressed by a given natural key. -/
def rowsFor (store : List PriceBar) (k : Nat × String × Nat) : List PriceBar :=
  store.filter (fun r => r.natKey = k)

/-- Maximum of a list of timestamps (0 for the empty list). -/
def listMax (l : List Nat) : Nat := l.foldr max 0

/-! ## Failure handler and retry policy
Modelled from the spec: sections 4.3, 4.5 and 7 classify errors raised by a
collector attempt as transient (network failure, HTTP 5xx, rate limit,
timeout) or permanent (bad credentials, unknown symbol, schema mismatch);
only transient errors are retried, with exponential backoff and jitter, up
to max_attempts per JobDefinition. -/

inductive ErrClass
  | transient
  | permanent
  deriving DecidableEq, Repr

/-- Outcome of a single collector attempt: success with a batch of record
timestamps, a classified error, or a timeout (a TransientExecutionError per
section 7). -/
inductive AttemptOutcome
  | ok (batch : List Nat)
  | err (c : ErrClass)
  | timeout
  deriving DecidableEq, Repr

/-- Whether an attempt outcome is a failure eligible for retry. -/
def AttemptOutcome.isTransientFailure : AttemptOutcome → Bool
  | .ok _ => false
  | .err .transient => true
  | .err .permanent => false
  | .timeout => true

inductive RunStatus
  | success
  | failed
  deriving DecidableEq, Repr

/-- Result of one run: terminal status, number of attempts used, the batch
committed by the successful attempt (empty on failure), the backoff delays
slept between attempts, and the watermark writes performed by the run. -/
structure RunResult where
  status : RunStatus
  attempt_count : Nat
  batch : List Nat
  delays : List Nat
  wmWrites : List Nat
  deriving DecidableEq, Repr

/-- Modelled from the spec: exponential backoff with jitter.  The delay slept
after failed attempt a is base times 2 to the (a-1), plus a jitter term. -/
def backoffDelay (base : Nat) (jitter : Nat → Nat) (a : Nat) : Nat :=
  base * 2 ^ (a - 1) + jitter a

/-- Modelled from the spec: the retry loop of the Failure Handler.  Attempt
number a runs with the given remaining attempt budget; a success commits its
batch and writes the watermark (the max committed timestamp) once; a
permanent error fails the run immediately; a transient failure retries after
a backoff delay while budget remains, and exhausts otherwise. -/
def retryLoop (exec : Nat → AttemptOutcome) (base : Nat) (jitter : Nat → Nat) :
    Nat → Nat → RunResult
  | a, 0 =>
      { status := .failed, attempt_count := a - 1, batch := [],
        delays := [], wmWrites := [] }
  | a, r + 1 =>
      match exec a with
      | .ok b =>
          { status := .success, attempt_count := a, batch := b,
            delays := [], wmWrites := if b = [] then [] else [listMax b] }
      | .err .permanent =>
          { status := .failed, attempt_count := a, batch := [],
            delays := [], wmWrites := [] }
      | .err .transient =>
          if r = 0 then
            { status := .failed, attempt_count := a, batch := [],
              delays := [], wmWrites := [] }
          else
            let rest := retryLoop exec base jitter (a + 1) r
            { rest with delays := backoffDelay base jitter a :: rest.delays }
      | .timeout =>
          if r = 0 then
            { status := .failed, attempt_count := a, batch := [],
              delays := [], wmWrites := [] }
          else
            let rest := retryLoop exec base jitter (a + 1) r
            { rest with delays := backoffDelay base jitter a :: rest.delays }

/-- Modelled from the spec: a full job run starts at attempt 1 with a budget
of max_attempts attempts. -/
def runJob (exec : Nat → AttemptOutcome) (base : Nat) (jitter : Nat → Nat)
    (max_attempts : Nat) : RunResult :=
  retryLoop exec base jitter 1 max_attempts

/-- Watermark value after a run, starting from pre-run value w0: the last
watermark write of the run, or w0 when the run wrote nothing. -/
def finalWm (w0 : Nat) (r : RunResult) : Nat :=
  r.wmWrites.getLastD w0

/-! ## Job Runner lease handling
Modelled from the spec: section 4.2's submit(job) acquires an exclusive
lease keyed by job id before starting, runs the retry loop, then releases
the lease unconditionally whatever the terminal outcome. -/

inductive LeaseEv
  | acquire (j : Nat)
  | release (j : Nat)
  deriving DecidableEq, Repr

structure RunnerState where
  leases : Nat → Bool

/-- Modelled from the spec: submit(job).  A held lease rejects the dispatch
and changes nothing; otherwise the lease is acquired, the run executes to
its terminal outcome, and the lease is released at the end. -/
def submit (st : RunnerState) (j : Nat) (exec : Nat → AttemptOutcome)
    (base : Nat) (jitter : Nat → Nat) (max_attempts : Nat) :
    RunnerState × Option RunResult × List LeaseEv :=
  if st.leases j then
    (st, none, [])
  else
    let r := runJob exec base jitter max_attempts
    ({ leases := fun k => if k = j then false else st.leases k },
     some r, [.acquire j, .release j])

/-! ## Watermark table
Modelled from the spec: sections 3, 4.4 and 7.  The watermark per key is the
last successfully committed timestamp; a successful run fetches the window
starting at the current watermark and, after the batch commits, writes the
max committed timestamp; a failed run leaves the watermark untouched; an
explicit backfill may set it to an arbitrary value. -/

inductive WmOp
  | runSuccess (k : Nat)
  | runFail (k : Nat)
  | backfill (k : Nat) (t : Nat)
  deriving DecidableEq, Repr

/-- Whether an operation is an explicit backfill on the given key. -/
def WmOp.isBackfillOn (k : Nat) : WmOp → Bool
  | .backfill k' _ => k' = k
  | _ => false

/-- Modelled from the spec: apply one operation to the watermark table.  The
collector fetch is invoked with a time range starting at the current
watermark of the key. -/
def applyWmOp (fetch : Nat → Nat → List Nat) (wm : Nat → Nat) :
    WmOp → (Nat → Nat)
  | .runSuccess k =>
      let batch := fetch k (wm k)
      if batch = [] then wm
      else fun k' => if k' = k then listMax batch else wm k'
  | .runFail _ => wm
  | .backfill k t => fun k' => if k' = k then t else wm k'

/-- Apply a sequence of operations to the watermark table, left to right. -/
def applyWmOps (fetch : Nat → Nat → List Nat) (wm : Nat → Nat)
    (ops : List WmOp) : Nat → Nat :=
  ops.foldl (applyWmOp fetch) wm

/-! ## Singleton concurrency control
Modelled from the spec: sections 3, 4.2 and 5.  JobRun records carry start
and end times; a job with the singleton policy may not start while another
run of the same job is still running (the dispatch is rejected and the slot
skipped), so at every instant at most one run of such a job is running and
terminal runs of such a job never overlap. -/

inductive ConcurrencyPolicy
  | singleton
  | concurrent
  deriving DecidableEq, Repr

/-- A JobRun record: owning job id, start time, and end time (none while the
run is still running). -/
structure JobRunRec where
  job : Nat
  start : Nat
  finish : Option Nat
  deriving DecidableEq, Repr

def JobRunRec.isRunning (r : JobRunRec) : Bool := r.finish.isNone

/-- Whether some run of job j is currently running. -/
def hasRunning (runs : List JobRunRec) (j : Nat) : Bool :=
  runs.any (fun r => r.job == j && r.isRunning)

structure SchedState where
  time : Nat
  runs : List JobRunRec
  deriving DecidableEq, Repr

inductive SchedEv
  | tick
  | startJob (j : Nat)
  | finishJob (j : Nat)
  deriving DecidableEq, Repr

/-- Mark the first running run of job j as finished at time t. -/
def finishFirst (j t : Nat) : List JobRunRec → List JobRunRec
  | [] => []
  | r :: rest =>
      if r.job == j && r.isRunning then { r with finish := some t } :: rest
      else r :: finishFirst j t rest

/-- Modelled from the spec: one scheduler transition.  Starting a singleton
job whose lease is held (a run of it is still running) is rejected and the
state is unchanged; otherwise a new running JobRun starts at the current
time.  Finishing sets the end time of the first running run of the job. -/
def schedStep (policy : Nat → ConcurrencyPolicy) (s : SchedState) :
    SchedEv → SchedState
  | .tick => { s with time := s.time + 1 }
  | .startJob j =>
      if policy j = ConcurrencyPolicy.singleton ∧ hasRunning s.runs j = true then s
      else { s with runs := s.runs ++ [{ job := j, start := s.time, finish := none }] }
  | .finishJob j => { s with runs := finishFirst j s.time s.runs }

def initState : SchedState := { time := 0, runs := [] }

/-- Run the scheduler model over an event trace from the initial state. -/
def runSched (policy : Nat → ConcurrencyPolicy) (evs : List SchedEv) : SchedState :=
  evs.foldl (schedStep policy) initState

/-- Ordering invariant: of two runs of the same singleton job, the earlier
one has finished no later than the start of the later one. -/
def RunsOrdered (policy : Nat → ConcurrencyPolicy) (runs : List JobRunRec) : Prop :=
  runs.Pairwise (fun r r' => r.job = r'.job → policy r.job = ConcurrencyPolicy.singleton →
    ∃ e, r.finish = some e ∧ e ≤ r'.start)

/-- Clock invariant: starts and finishes lie within [start, now]. -/
def TimeBounds (t : Nat) (runs : List JobRunRec) : Prop :=
  ∀ r ∈ runs, r.start ≤ t ∧ ∀ e, r.finish = some e → r.start ≤ e ∧ e ≤ t

def SchedInv (policy : Nat → ConcurrencyPolicy) (s : SchedState) : Prop :=
  TimeBounds s.time s.runs ∧ RunsOrdered policy s.runs

/-- Two closed [start, end] intervals overlap when each starts strictly
before the other ends, i.e. they share more than a boundary instant. -/
def IntervalsOverlap (s1 e1 s2 e2 : Nat) : Prop := s1 < e2 ∧ s2 < e1

/-! ## Cron Trigger Engine
Modelled from the spec: section 4.1.  Each job holds a next fire time; a
tick at time now fires a due job at most once and then reschedules it for
the first valid slot strictly after now (skip-to-next downtime policy), so a
gap of N missed slots yields one dispatched run, never N. -/

/-- A periodic cron schedule: fire slots are the times congruent to offset
modulo period (the repository jobs are daily at fixed minutes). -/
structure CronSchedule where
  period : Nat
  offset : Nat
  deriving DecidableEq, Repr

/-- First fire slot strictly after t. -/
def CronSchedule.nextAfter (c : CronSchedule) (t : Nat) : Nat :=
  t + 1 + (c.offset + c.period - (t + 1) % c.period) % c.period

/-- Per-job trigger state. -/
structure TriggerJob where
  sched : CronSchedule
  enabled : Bool
  next_fire : Nat
  deriving DecidableEq, Repr

/-- Modelled from the spec: tick(now) for one job.  A disabled job never
fires; a due job (next_fire has passed) dispatches exactly one run and is
rescheduled to the first slot strictly after now; otherwise nothing
happens. -/
def tickJob (now : Nat) (tj : TriggerJob) : TriggerJob × List Nat :=
  if tj.enabled = false then (tj, [])
  else if tj.next_fire ≤ now then
    ({ tj with next_fire := tj.sched.nextAfter now }, [tj.next_fire])
  else (tj, [])

/-- Fire slots of the schedule lying in [lo, hi]; its length is the number
of slots a gap from lo to hi spans. -/
def slotsIn (c : CronSchedule) (lo hi : Nat) : List Nat :=
  (List.range (hi + 1)).filter (fun s => lo ≤ s && s % c.period == c.offset % c.period)

/-! ## Process-level error propagation
Modelled from the spec: section 7.  Configuration errors (invalid cron
field, missing handler reference) are detected at boot and are fatal with a
non-zero exit; after a successful boot every job-level error is caught,
logged and recorded, and the tick loop always runs to completion. -/

inductive ConfigurationError
  | invalidCron (jobId : String)
  | missingHandler (jobId : String)
  deriving DecidableEq, Repr

structure JobConfig where
  id : String
  cron_minute : Nat
  cron_hour : Nat
  handler : String
  max_attempts : Nat
  enabled : Bool
  deriving DecidableEq, Repr

/-- Modelled from the spec: boot-time validation of one JobDefinition. -/
def validateJob (known : List String) (jc : JobConfig) : Option ConfigurationError :=
  if 60 ≤ jc.cron_minute ∨ 24 ≤ jc.cron_hour then some (.invalidCron jc.id)
  else if jc.handler ∈ known then none
  else some (.missingHandler jc.id)

/-- First configuration error in the job list, if any. -/
def validateConfig (known : List String) (cfgs : List JobConfig) :
    Option ConfigurationError :=
  cfgs.findSome? (validateJob known)

inductive JobError
  | transientErr
  | permanentErr
  | persistenceErr
  deriving DecidableEq, Repr

structure SchedulerFinal where
  exitCode : Nat
  ticksProcessed : Nat
  logs : List (String × Option JobError)
  deriving DecidableEq, Repr

/-- Modelled from the spec: the per-run wrapper catches any job error and
turns it into a log record instead of propagating it. -/
def runSafely (jobId : String) (out : Except JobError Unit) :
    String × Option JobError :=
  match out with
  | .ok _ => (jobId, none)
  | .error e => (jobId, some e)

/-- Modelled from the spec: process main.  Boot validates the static job
configuration; a ConfigurationError aborts before any tick runs; otherwise
every tick's job executions are wrapped by runSafely and the loop processes
the whole tick trace. -/
def schedulerMain (known : List String) (cfgs : List JobConfig)
    (ticks : List (List (String × Except JobError Unit))) :
    Except ConfigurationError SchedulerFinal :=
  match validateConfig known cfgs with
  | some e => .error e
  | none =>
      .ok { exitCode := 0,
            ticksProcessed := ticks.length,
            logs := ticks.foldl
              (fun acc tick => acc ++ tick.map (fun p => runSafely p.1 p.2)) [] }

/-- Observed process exit code: non-zero exactly on a fatal boot error. -/
def exitCodeOf (r : Except ConfigurationError SchedulerFinal) : Nat :=
  match r with
  | .error _ => 1
  | .ok f => f.exitCode

/-! ## Theorems -/

theorem foldl_max_init_le (l : List Nat) : ∀ a : Nat, a ≤ l.foldl max a := by
  induction l with
  | nil => intro a; simp
  | cons x xs ih =>
      intro a
      exact le_trans (le_max_left a x) (ih (max a x))

theorem le_foldl_max (l : List Nat) : ∀ a x : Nat, x ∈ l → x ≤ l.foldl max a := by
  induction l with
  | nil => intro a x hx; cases hx
  | cons y ys ih =>
      intro a x hx
      rcases List.mem_cons.mp hx with rfl | hx
      · exact le_trans (le_max_right a x) (foldl_max_init_le ys (max a x))
      · exact ih (max a y) x hx

/-- C9: for a ratio parsing into [0,1], handleUpdateRatio keeps the list
length and order, leaves every entry whose id differs from symbolId
unchanged, and on a matching entry changes only the allocation_ratio field,
leaving id, symbol_id, symbol_name and is_active intact. -/
theorem handleUpdateRatio_frame (symbols : List StrategySymbol) (symbolId : Nat)
    (ratio : ℚ) (h0 : 0 ≤ ratio) (h1 : ratio ≤ 1) :
    (handleUpdateRatio symbols symbolId ratio).length = symbols.length ∧
    ∀ (i : Nat) (s : StrategySymbol), symbols[i]? = some s →
      (s.id ≠ symbolId → (handleUpdateRatio symbols symbolId ratio)[i]? = some s) ∧
      (s.id = symbolId → ∃ s',
        (handleUpdateRatio symbols symbolId ratio)[i]? = some s' ∧
        s'.id = s.id ∧ s'.symbol_id = s.symbol_id ∧
        s'.symbol_name = s.symbol_name ∧ s'.is_active = s.is_active ∧
        s'.allocation_ratio = ratio) := by
  have hguard : ¬(ratio < 0 ∨ ratio > 1) := by push_neg; exact ⟨h0, h1⟩
  refine ⟨by simp [handleUpdateRatio, hguard], ?_⟩
  intro i s hs
  have hmap : (handleUpdateRatio symbols symbolId ratio)[i]? =
      some (if s.id = symbolId then { s with allocation_ratio := ratio } else s) := by
    simp [handleUpdateRatio, hguard, List.getElem?_map, hs]
  refine ⟨fun hne => ?_, fun heq => ?_⟩
  · rw [hmap, if_neg hne]
  · exact ⟨{ s with allocation_ratio := ratio },
      by rw [hmap, if_pos heq], rfl, rfl, rfl, rfl, rfl⟩

/-- C9 witness: the frame property evaluated at the component's mock list. -/
theorem handleUpdateRatio_frame_witness :
    (0 : ℚ) ≤ 1 ∧ (1 : ℚ) ≤ 1 ∧
    ((handleUpdateRatio mockSymbols 2 1).length = mockSymbols.length ∧
    ∀ (i : Nat) (s : StrategySymbol), mockSymbols[i]? = some s →
      (s.id ≠ 2 → (handleUpdateRatio mockSymbols 2 1)[i]? = some s) ∧
      (s.id = 2 → ∃ s',
        (handleUpdateRatio mockSymbols 2 1)[i]? = some s' ∧
        s'.id = s.id ∧ s'.symbol_id = s.symbol_id ∧
        s'.symbol_name = s.symbol_name ∧ s'.is_active = s.is_active ∧
        s'.allocation_ratio = 1)) :=
  ⟨by norm_num, by norm_num,
    handleUpdateRatio_frame mockSymbols 2 1 (by norm_num) (by norm_num)⟩

/-- C10: on a list with pairwise distinct ids, a successful handleAddSymbol
appends one symbol whose id is the running maximum of the existing ids and 0
plus one, hence strictly greater than every existing id, and the resulting
id list is again pairwise distinct. -/
theorem handleAddSymbol_fresh_id (symbols : List StrategySymbol)
    (name : String) (ratio : ℚ) (rid : Nat)
    (hname : ¬(name = "")) (h0 : 0 ≤ ratio) (h1 : ratio ≤ 1)
    (hdist : (symbols.map (fun s => s.id)).Nodup) :
    ∃ newSym : StrategySymbol,
      handleAddSymbol symbols name ratio rid = symbols ++ [newSym] ∧
      newSym.id = (symbols.map (fun s => s.id)).foldl max 0 + 1 ∧
      (∀ s ∈ symbols, s.id < newSym.id) ∧
      ((handleAddSymbol symbols name ratio rid).map (fun s => s.id)).Nodup := by
  have hguard : ¬(ratio < 0 ∨ ratio > 1) := by push_neg; exact ⟨h0, h1⟩
  have heq : handleAddSymbol symbols name ratio rid =
      symbols ++ [⟨(symbols.map (fun s => s.id)).foldl max 0 + 1, rid, name, ratio, true⟩] := by
    simp [handleAddSymbol, hname, hguard]
  have hlt : ∀ s ∈ symbols, s.id < (symbols.map (fun s => s.id)).foldl max 0 + 1 := by
    intro s hs
    have := le_foldl_max (symbols.map (fun s => s.id)) 0 s.id
      (List.mem_map_of_mem (fun s => s.id) hs)
    omega
  refine ⟨_, heq, rfl, hlt, ?_⟩
  rw [heq, List.map_append, List.nodup_append]
  refine ⟨hdist, by simp, ?_⟩
  intro a ha hb
  simp only [List.map_cons, List.map_nil, List.mem_singleton] at hb
  obtain ⟨s, hs, rfl⟩ := List.mem_map.mp ha
  have := hlt s hs
  omega

/-- C10 witness: adding a symbol to the mock list yields id 4, greater than
every existing id, with distinctness preserved. -/
theorem handleAddSymbol_fresh_id_witness :
    ¬("KRW-SOL" = "") ∧
    ∃ newSym : StrategySymbol,
      handleAddSymbol mockSymbols "KRW-SOL" 1 555 = mockSymbols ++ [newSym] ∧
      newSym.id = (mockSymbols.map (fun s => s.id)).foldl max 0 + 1 ∧
      (∀ s ∈ mockSymbols, s.id < newSym.id) ∧
      ((handleAddSymbol mockSymbols "KRW-SOL" 1 555).map (fun s => s.id)).Nodup :=
  ⟨by decide,
    handleAddSymbol_fresh_id mockSymbols "KRW-SOL" 1 555 (by decide)
      (by norm_num) (by norm_num) (by decide)⟩

/-- C6: submit on a free lease acquires it at the start and releases it at
the end, whatever the terminal outcome of the run (success, failure or
timeout): the lease is free afterwards, the lease trace is exactly one
acquire followed by one release, and a run result is produced. -/
theorem submit_releases_lease (st : RunnerState) (j : Nat)
    (exec : Nat → AttemptOutcome) (base : Nat) (jitter : Nat → Nat)
    (max_attempts : Nat) (hfree : st.leases j = false) :
    (submit st j exec base jitter max_attempts).1.leases j = false ∧
    (submit st j exec base jitter max_attempts).2.2 =
      [LeaseEv.acquire j, LeaseEv.release j] ∧
    (submit st j exec base jitter max_attempts).2.1 =
      some (runJob exec base jitter max_attempts) := by
  simp [submit, hfree]

/-- C6 witness: a timed-out run still ends with the lease free and the
acquire/release trace. -/
theorem submit_releases_lease_witness :
    (RunnerState.mk (fun _ => false)).leases 7 = false ∧
    ((submit (RunnerState.mk (fun _ => false)) 7 (fun _ => AttemptOutcome.timeout)
        5 (fun _ => 0) 3).1.leases 7 = false ∧
     (submit (RunnerState.mk (fun _ => false)) 7 (fun _ => AttemptOutcome.timeout)
        5 (fun _ => 0) 3).2.2 = [LeaseEv.acquire 7, LeaseEv.release 7] ∧
     (submit (RunnerState.mk (fun _ => false)) 7 (fun _ => AttemptOutcome.timeout)
        5 (fun _ => 0) 3).2.1 =
       some (runJob (fun _ => AttemptOutcome.timeout) 5 (fun _ => 0) 3)) :=
  ⟨rfl, submit_releases_lease (RunnerState.mk (fun _ => false)) 7
    (fun _ => AttemptOutcome.timeout) 5 (fun _ => 0) 3 rfl⟩

/-- C8: a valid configuration boots and then processes every tick, with
every job-level error contained by the run wrapper and exit code 0; an
invalid configuration is fatal at process start with a non-zero exit,
whatever tick trace would have followed. -/
theorem job_error_containment (known : List String) (cfgs : List JobConfig) :
    (∀ ticks, validateConfig known cfgs = none →
      ∃ final, schedulerMain known cfgs ticks = Except.ok final ∧
        final.ticksProcessed = ticks.length ∧
        exitCodeOf (schedulerMain known cfgs ticks) = 0) ∧
    (∀ ticks e, validateConfig known cfgs = some e →
      schedulerMain known cfgs ticks = Except.error e ∧
      exitCodeOf (schedulerMain known cfgs ticks) = 1) := by
  constructor
  · intro ticks h
    refine ⟨⟨0, ticks.length,
        ticks.foldl (fun acc tick => acc ++ tick.map (fun p => runSafely p.1 p.2)) []⟩,
      ?_, rfl, ?_⟩ <;> simp [schedulerMain, h, exitCodeOf]
  · intro ticks e h
    constructor <;> simp [schedulerMain, h, exitCodeOf]

/-- C8 witness: a run in which every job raises an error still processes
both ticks and exits 0, and a job with an invalid cron hour is fatal at
boot with exit code 1. -/
theorem job_error_containment_witness :
    (validateConfig ["collect_symbols"]
        [⟨"collect_symbols", 0, 0, "collect_symbols", 3, true⟩] = none ∧
      ∃ final, schedulerMain ["collect_symbols"]
          [⟨"collect_symbols", 0, 0, "collect_symbols", 3, true⟩]
          [[("collect_symbols", Except.error JobError.transientErr)],
           [("collect_symbols", Except.error JobError.permanentErr)]] =
          Except.ok final ∧
        final.ticksProcessed = 2 ∧
        exitCodeOf (schedulerMain ["collect_symbols"]
          [⟨"collect_symbols", 0, 0, "collect_symbols", 3, true⟩]
          [[("collect_symbols", Except.error JobError.transientErr)],
           [("collect_symbols", Except.error JobError.permanentErr)]]) = 0) ∧
    (validateConfig ["collect_symbols"]
        [⟨"bad_job", 0, 25, "collect_symbols", 3, true⟩] =
        some (ConfigurationError.invalidCron "bad_job") ∧
      schedulerMain ["collect_symbols"]
        [⟨"bad_job", 0, 25, "collect_symbols", 3, true⟩] [] =
        Except.error (ConfigurationError.invalidCron "bad_job") ∧
      exitCodeOf (schedulerMain ["collect_symbols"]
        [⟨"bad_job", 0, 25, "collect_symbols", 3, true⟩] []) = 1) :=
  ⟨⟨by decide,
    (job_error_containment ["collect_symbols"]
      [⟨"collect_symbols", 0, 0, "collect_symbols", 3, true⟩]).1
      [[("collect_symbols", Except.error JobError.transientErr)],
       [("collect_symbols", Except.error JobError.permanentErr)]] (by decide)⟩,
   ⟨by decide,
    (job_error_containment ["collect_symbols"]
      [⟨"bad_job", 0, 25, "collect_symbols", 3, true⟩]).2 []
      (ConfigurationError.invalidCron "bad_job") (by decide)⟩⟩

theorem range_backoff_cons (base : Nat) (jitter : Nat → Nat) (a k : Nat) :
    (List.range (k + 1)).map (fun i => backoffDelay base jitter (a + i)) =
      backoffDelay base jitter a ::
        (List.range k).map (fun i => backoffDelay base jitter (a + 1 + i)) := by
  rw [List.range_succ_eq_map, List.map_cons, List.map_map]
  congr 1
  apply List.map_congr_left
  intro i _
  simp only [Function.comp_apply]
  congr 1
  omega

theorem retryLoop_transient_step (exec : Nat → AttemptOutcome) (base : Nat)
    (jitter : Nat → Nat) (a r : Nat) (hr : r ≠ 0)
    (ht : (exec a).isTransientFailure = true) :
    retryLoop exec base jitter a (r + 1) =
      { retryLoop exec base jitter (a + 1) r with
        delays := backoffDelay base jitter a ::
          (retryLoop exec base jitter (a + 1) r).delays } := by
  cases hx : exec a with
  | ok b => rw [hx] at ht; simp [AttemptOutcome.isTransientFailure] at ht
  | err c =>
      cases c with
      | transient => simp [retryLoop, hx, hr]
      | permanent => rw [hx] at ht; simp [AttemptOutcome.isTransientFailure] at ht
  | timeout => simp [retryLoop, hx, hr]

theorem retryLoop_success_at (exec : Nat → AttemptOutcome) (base : Nat)
    (jitter : Nat → Nat) :
    ∀ (k r a : Nat) (batch : List Nat), k < r →
      (∀ i, a ≤ i → i < a + k → (exec i).isTransientFailure = true) →
      exec (a + k) = AttemptOutcome.ok batch →
      retryLoop exec base jitter a r =
        { status := RunStatus.success, attempt_count := a + k, batch := batch,
          delays := (List.range k).map (fun i => backoffDelay base jitter (a + i)),
          wmWrites := if batch = [] then [] else [listMax batch] } := by
  intro k
  induction k with
  | zero =>
      intro r a batch hk htrans hsucc
      obtain ⟨r', rfl⟩ : ∃ r', r = r' + 1 := ⟨r - 1, by omega⟩
      rw [Nat.add_zero] at hsucc
      simp [retryLoop, hsucc]
  | succ k ih =>
      intro r a batch hk htrans hsucc
      obtain ⟨r', rfl⟩ : ∃ r', r = r' + 1 := ⟨r - 1, by omega⟩
      have ht : (exec a).isTransientFailure = true := htrans a le_rfl (by omega)
      have hr' : r' ≠ 0 := by omega
      rw [retryLoop_transient_step exec base jitter a r' hr' ht]
      rw [ih r' (a + 1) batch (by omega)
        (fun i hi1 hi2 => htrans i (by omega) (by omega))
        (by rw [show a + 1 + k = a + (k + 1) from by omega]; exact hsucc)]
      rw [range_backoff_cons]
      simp only [RunResult.mk.injEq, and_true, true_and]
      omega

theorem retryLoop_permanent_at (exec : Nat → AttemptOutcome) (base : Nat)
    (jitter : Nat → Nat) :
    ∀ (k r a : Nat), k < r →
      (∀ i, a ≤ i → i < a + k → (exec i).isTransientFailure = true) →
      exec (a + k) = AttemptOutcome.err ErrClass.permanent →
      retryLoop exec base jitter a r =
        { status := RunStatus.failed, attempt_count := a + k, batch := [],
          delays := (List.range k).map (fun i => backoffDelay base jitter (a + i)),
          wmWrites := [] } := by
  intro k
  induction k with
  | zero =>
      intro r a hk htrans hperm
      obtain ⟨r', rfl⟩ : ∃ r', r = r' + 1 := ⟨r - 1, by omega⟩
      rw [Nat.add_zero] at hperm
      simp [retryLoop, hperm]
  | succ k ih =>
      intro r a hk htrans hperm
      obtain ⟨r', rfl⟩ : ∃ r', r = r' + 1 := ⟨r - 1, by omega⟩
      have ht : (exec a).isTransientFailure = true := htrans a le_rfl (by omega)
      have hr' : r' ≠ 0 := by omega
      rw [retryLoop_transient_step exec base jitter a r' hr' ht]
      rw [ih r' (a + 1) (by omega)
        (fun i hi1 hi2 => htrans i (by omega) (by omega))
        (by rw [show a + 1 + k = a + (k + 1) from by omega]; exact hperm)]
      rw [range_backoff_cons]
      simp only [RunResult.mk.injEq, and_true, true_and]
      omega

theorem retryLoop_exhausted (exec : Nat → AttemptOutcome) (base : Nat)
    (jitter : Nat → Nat) :
    ∀ (r a : Nat), 0 < r →
      (∀ i, a ≤ i → i < a + r → (exec i).isTransientFailure = true) →
      retryLoop exec base jitter a r =
        { status := RunStatus.failed, attempt_count := a + r - 1, batch := [],
          delays := (List.range (r - 1)).map (fun i => backoffDelay base jitter (a + i)),
          wmWrites := [] } := by
  intro r
  induction r with
  | zero => intro a h; omega
  | succ r ih =>
      intro a _ htrans
      have ht : (exec a).isTransientFailure = true := htrans a le_rfl (by omega)
      rcases Nat.eq_zero_or_pos r with hr | hr
      · subst hr
        cases hx : exec a with
        | ok b => rw [hx] at ht; simp [AttemptOutcome.isTransientFailure] at ht
        | err c =>
            cases c with
            | transient => simp [retryLoop, hx]
            | permanent => rw [hx] at ht; simp [AttemptOutcome.isTransientFailure] at ht
        | timeout => simp [retryLoop, hx]
      · obtain ⟨m, rfl⟩ : ∃ m, r = m + 1 := ⟨r - 1, by omega⟩
        rw [retryLoop_transient_step exec base jitter a (m + 1) (by omega) ht]
        rw [ih (a + 1) (by omega) (fun i hi1 hi2 => htrans i (by omega) (by omega))]
        rw [show m + 1 + 1 - 1 = m + 1 from by omega, range_backoff_cons]
        simp only [RunResult.mk.injEq, Nat.add_sub_cancel, and_true, true_and]
        omega

theorem retryLoop_failed_wmWrites (exec : Nat → AttemptOutcome) (base : Nat)
    (jitter : Nat → Nat) :
    ∀ (r a : Nat), (retryLoop exec base jitter a r).status = RunStatus.failed →
      (retryLoop exec base jitter a r).wmWrites = [] := by
  intro r
  induction r with
  | zero => intro a _; rfl
  | succ r ih =>
      intro a h
      cases hx : exec a with
      | ok b => simp [retryLoop, hx] at h
      | err c =>
          cases c with
          | permanent => simp [retryLoop, hx]
          | transient =>
              rcases Nat.eq_zero_or_pos r with hr | hr
              · subst hr; simp [retryLoop, hx]
              · have hstep := retryLoop_transient_step exec base jitter a r
                  (by omega) (by rw [hx]; rfl)
                rw [hstep] at h ⊢
                exact ih (a + 1) h
      | timeout =>
          rcases Nat.eq_zero_or_pos r with hr | hr
          · subst hr; simp [retryLoop, hx]
          · have hstep := retryLoop_transient_step exec base jitter a r
              (by omega) (by rw [hx]; rfl)
            rw [hstep] at h ⊢
            exact ih (a + 1) h

/-- C3: a run whose first a-1 attempts raise transient failures and whose
attempt a raises a permanent error fails at attempt a with no further retry;
one whose attempt a succeeds is retried up to there with exponential backoff
delays; and all-transient failures are retried exactly up to max_attempts
and then fail. -/
theorem transient_retry_permanent_fail (base : Nat) (jitter : Nat → Nat)
    (max_attempts : Nat) (hmax : 1 ≤ max_attempts) :
    (∀ (exec : Nat → AttemptOutcome) (a : Nat), 1 ≤ a → a ≤ max_attempts →
      (∀ i, 1 ≤ i → i < a → (exec i).isTransientFailure = true) →
      exec a = AttemptOutcome.err ErrClass.permanent →
      runJob exec base jitter max_attempts =
        { status := RunStatus.failed, attempt_count := a, batch := [],
          delays := (List.range (a - 1)).map
            (fun i => backoffDelay base jitter (1 + i)),
          wmWrites := [] }) ∧
    (∀ (exec : Nat → AttemptOutcome) (a : Nat) (batch : List Nat),
      1 ≤ a → a ≤ max_attempts →
      (∀ i, 1 ≤ i → i < a → (exec i).isTransientFailure = true) →
      exec a = AttemptOutcome.ok batch →
      runJob exec base jitter max_attempts =
        { status := RunStatus.success, attempt_count := a, batch := batch,
          delays := (List.range (a - 1)).map
            (fun i => backoffDelay base jitter (1 + i)),
          wmWrites := if batch = [] then [] else [listMax batch] }) ∧
    (∀ (exec : Nat → AttemptOutcome),
      (∀ i, 1 ≤ i → i ≤ max_attempts → (exec i).isTransientFailure = true) →
      runJob exec base jitter max_attempts =
        { status := RunStatus.failed, attempt_count := max_attempts, batch := [],
          delays := (List.range (max_attempts - 1)).map
            (fun i => backoffDelay base jitter (1 + i)),
          wmWrites := [] }) := by
  refine ⟨?_, ?_, ?_⟩
  · intro exec a h1 h2 htr hperm
    have hmain := retryLoop_permanent_at exec base jitter (a - 1) max_attempts 1
      (by omega) (fun i hi1 hi2 => htr i hi1 (by omega))
      (by rw [show 1 + (a - 1) = a from by omega]; exact hperm)
    unfold runJob
    rw [hmain]
    simp only [RunResult.mk.injEq, and_true, true_and]
    omega
  · intro exec a batch h1 h2 htr hsucc
    have hmain := retryLoop_success_at exec base jitter (a - 1) max_attempts 1 batch
      (by omega) (fun i hi1 hi2 => htr i hi1 (by omega))
      (by rw [show 1 + (a - 1) = a from by omega]; exact hsucc)
    unfold runJob
    rw [hmain]
    simp only [RunResult.mk.injEq, and_true, true_and]
    omega
  · intro exec htr
    have hmain := retryLoop_exhausted exec base jitter max_attempts 1
      (by omega) (fun i hi1 hi2 => htr i hi1 (by omega))
    unfold runJob
    rw [hmain]
    simp only [RunResult.mk.injEq, and_true, true_and]
    omega

/-- C3 witness: with max_attempts 3, a first-attempt permanent error fails
at attempt 1 with no retry; transient failures on attempts 1 and 2 followed
by success on attempt 3 give two exponential backoff delays; all-transient
runs stop after attempt 3. -/
theorem transient_retry_permanent_fail_witness :
    (runJob (fun a => if a = 1 then AttemptOutcome.err ErrClass.permanent
          else AttemptOutcome.ok []) 5 (fun _ => 1) 3 =
      { status := RunStatus.failed, attempt_count := 1, batch := [],
        delays := (List.range 0).map (fun i => backoffDelay 5 (fun _ => 1) (1 + i)),
        wmWrites := [] }) ∧
    (runJob (fun a => if a < 3 then AttemptOutcome.err ErrClass.transient
          else AttemptOutcome.ok [10, 20]) 5 (fun _ => 1) 3 =
      { status := RunStatus.success, attempt_count := 3, batch := [10, 20],
        delays := (List.range 2).map (fun i => backoffDelay 5 (fun _ => 1) (1 + i)),
        wmWrites := if ([10, 20] : List Nat) = [] then [] else [listMax [10, 20]] }) ∧
    (runJob (fun _ => AttemptOutcome.err ErrClass.transient) 5 (fun _ => 1) 3 =
      { status := RunStatus.failed, attempt_count := 3, batch := [],
        delays := (List.range 2).map (fun i => backoffDelay 5 (fun _ => 1) (1 + i)),
        wmWrites := [] }) := by
  obtain ⟨hp, hs, ht⟩ := transient_retry_permanent_fail 5 (fun _ => 1) 3 (by decide)
  refine ⟨?_, ?_, ?_⟩
  · exact hp _ 1 (by decide) (by decide) (by intro i hi1 hi2; omega) rfl
  · exact hs _ 3 [10, 20] (by decide) (by decide)
      (by intro i hi1 hi2
          simp [AttemptOutcome.isTransientFailure, hi2]) rfl
  · exact ht _ (by intro i hi1 hi2; rfl)

/-- C2: a run ending in failure performs no watermark write, leaving the
watermark at its pre-run value; a run with transient failures before a
successful attempt that commits a nonempty batch writes the watermark
exactly once, to the max committed timestamp of the successful attempt. -/
theorem watermark_failure_retry_safe (base w0 : Nat) (jitter : Nat → Nat)
    (max_attempts : Nat) :
    (∀ (exec : Nat → AttemptOutcome),
      (runJob exec base jitter max_attempts).status = RunStatus.failed →
      (runJob exec base jitter max_attempts).wmWrites = [] ∧
      finalWm w0 (runJob exec base jitter max_attempts) = w0) ∧
    (∀ (exec : Nat → AttemptOutcome) (a : Nat) (batch : List Nat),
      1 ≤ a → a ≤ max_attempts →
      (∀ i, 1 ≤ i → i < a → (exec i).isTransientFailure = true) →
      exec a = AttemptOutcome.ok batch → ¬(batch = []) →
      (runJob exec base jitter max_attempts).status = RunStatus.success ∧
      (runJob exec base jitter max_attempts).wmWrites = [listMax batch] ∧
      finalWm w0 (runJob exec base jitter max_attempts) = listMax batch) := by
  constructor
  · intro exec hfail
    have hw := retryLoop_failed_wmWrites exec base jitter max_attempts 1 hfail
    exact ⟨hw, by unfold finalWm runJob; rw [hw]; rfl⟩
  · intro exec a batch h1 h2 htr hsucc hne
    have hmain := retryLoop_success_at exec base jitter (a - 1) max_attempts 1 batch
      (by omega) (fun i hi1 hi2 => htr i hi1 (by omega))
      (by rw [show 1 + (a - 1) = a from by omega]; exact hsucc)
    have hrun : runJob exec base jitter max_attempts =
        { status := RunStatus.success, attempt_count := 1 + (a - 1), batch := batch,
          delays := (List.range (a - 1)).map
            (fun i => backoffDelay base jitter (1 + i)),
          wmWrites := if batch = [] then [] else [listMax batch] } := hmain
    rw [hrun, if_neg hne]
    exact ⟨rfl, rfl, rfl⟩

/-- C2 witness: an all-permanent run leaves the watermark at 100; transient
failures on attempts 1 and 2 with success committing timestamps 10 and 20 on
attempt 3 advance the watermark once, to 20. -/
theorem watermark_failure_retry_safe_witness :
    ((runJob (fun _ => AttemptOutcome.err ErrClass.permanent) 5 (fun _ => 1) 3).status =
        RunStatus.failed ∧
      (runJob (fun _ => AttemptOutcome.err ErrClass.permanent) 5 (fun _ => 1) 3).wmWrites = [] ∧
      finalWm 100 (runJob (fun _ => AttemptOutcome.err ErrClass.permanent) 5 (fun _ => 1) 3) = 100) ∧
    ((runJob (fun a => if a < 3 then AttemptOutcome.err ErrClass.transient
          else AttemptOutcome.ok [10, 20]) 5 (fun _ => 1) 3).status = RunStatus.success ∧
      (runJob (fun a => if a < 3 then AttemptOutcome.err ErrClass.transient
          else AttemptOutcome.ok [10, 20]) 5 (fun _ => 1) 3).wmWrites = [listMax [10, 20]] ∧
      finalWm 100 (runJob (fun a => if a < 3 then AttemptOutcome.err ErrClass.transient
          else AttemptOutcome.ok [10, 20]) 5 (fun _ => 1) 3) = listMax [10, 20]) := by
  obtain ⟨hfail, hsucc⟩ := watermark_failure_retry_safe 5 100 (fun _ => 1) 3
  refine ⟨⟨by decide, hfail _ (by decide)⟩, ?_⟩
  exact hsucc _ 3 [10, 20] (by decide) (by decide)
    (by intro i hi1 hi2; simp [AttemptOutcome.isTransientFailure, hi2])
    rfl (by decide)

theorem le_listMax (l : List Nat) : ∀ x ∈ l, x ≤ listMax l := by
  induction l with
  | nil => intro x hx; cases hx
  | cons y ys ih =>
      intro x hx
      rcases List.mem_cons.mp hx with rfl | hx
      · simp only [listMax, List.foldr_cons]
        exact le_max_left _ _
      · have hx' := ih x hx
        simp only [listMax, List.foldr_cons]
        simp only [listMax] at hx'
        exact le_trans hx' (le_max_right _ _)

theorem applyWmOp_mono (fetch : Nat → Nat → List Nat)
    (hfetch : ∀ k w t, t ∈ fetch k w → w ≤ t) (wm : Nat → Nat) (op : WmOp)
    (k : Nat) (hop : op.isBackfillOn k = false) :
    wm k ≤ applyWmOp fetch wm op k := by
  cases op with
  | runSuccess k2 =>
      by_cases hb : fetch k2 (wm k2) = []
      · simp [applyWmOp, hb]
      · by_cases hk : k = k2
        · subst hk
          obtain ⟨t, ht⟩ := List.exists_mem_of_ne_nil _ hb
          have hgoal : applyWmOp fetch wm (WmOp.runSuccess k) k =
              listMax (fetch k (wm k)) := by
            simp [applyWmOp, hb]
          rw [hgoal]
          exact le_trans (hfetch k (wm k) t ht) (le_listMax _ t ht)
        · simp [applyWmOp, hb, hk]
  | runFail k2 => simp [applyWmOp]
  | backfill k2 t =>
      have hk : ¬(k = k2) := by
        intro h
        rw [h] at hop
        simp [WmOp.isBackfillOn] at hop
      simp [applyWmOp, hk]

theorem applyWmOps_mono (fetch : Nat → Nat → List Nat)
    (hfetch : ∀ k w t, t ∈ fetch k w → w ≤ t) (k : Nat) :
    ∀ (ops : List WmOp) (wm : Nat → Nat),
      (∀ op ∈ ops, op.isBackfillOn k = false) →
      wm k ≤ applyWmOps fetch wm ops k := by
  intro ops
  induction ops with
  | nil => intro wm _; exact le_rfl
  | cons op ops ih =>
      intro wm h
      have h1 := applyWmOp_mono fetch hfetch wm op k (h op (List.mem_cons_self op ops))
      have h2 := ih (applyWmOp fetch wm op) (fun o ho => h o (List.mem_cons_of_mem _ ho))
      exact le_trans h1 h2

/-- C7: along any operation sequence free of explicit backfills on a key,
and with the collector honoring its contract that fetched records lie in the
requested window (timestamps at or after the passed watermark), the
watermark of that key after any prefix is at most its value after the whole
sequence: the written values are monotonically non-decreasing. -/
theorem watermark_monotone (fetch : Nat → Nat → List Nat)
    (hfetch : ∀ k w t, t ∈ fetch k w → w ≤ t)
    (wm0 : Nat → Nat) (k : Nat) (ops : List WmOp)
    (hops : ∀ op ∈ ops, op.isBackfillOn k = false) :
    ∀ pre post, ops = pre ++ post →
      applyWmOps fetch wm0 pre k ≤ applyWmOps fetch wm0 ops k := by
  intro pre post hsplit
  subst hsplit
  have hsplit2 : applyWmOps fetch wm0 (pre ++ post) =
      applyWmOps fetch (applyWmOps fetch wm0 pre) post := by
    simp only [applyWmOps, List.foldl_append]
  rw [hsplit2]
  exact applyWmOps_mono fetch hfetch k post (applyWmOps fetch wm0 pre)
    (fun op ho => hops op (List.mem_append_right pre ho))

/-- C7 witness: two successful runs around a failed one, with a collector
returning the window start plus three, never decrease the watermark of key
0 started at 2. -/
theorem watermark_monotone_witness :
    applyWmOps (fun _ w => [w + 3]) (fun _ => 2) [WmOp.runSuccess 0] 0 ≤
      applyWmOps (fun _ w => [w + 3]) (fun _ => 2)
        [WmOp.runSuccess 0, WmOp.runFail 0, WmOp.runSuccess 0] 0 :=
  watermark_monotone (fun _ w => [w + 3])
    (by intro k w t ht; simp at ht; omega)
    (fun _ => 2) 0 [WmOp.runSuccess 0, WmOp.runFail 0, WmOp.runSuccess 0]
    (by decide) [WmOp.runSuccess 0] [WmOp.runFail 0, WmOp.runSuccess 0] rfl

theorem nextAfter_gt (c : CronSchedule) (t : Nat) : t < c.nextAfter t := by
  unfold CronSchedule.nextAfter
  omega

theorem nextAfter_mod (c : CronSchedule) (t : Nat) (hp : 0 < c.period) :
    c.nextAfter t % c.period = c.offset % c.period := by
  unfold CronSchedule.nextAfter
  rw [Nat.add_mod_mod]
  have hu_lt : (t + 1) % c.period < c.period := Nat.mod_lt _ hp
  obtain ⟨d, hd⟩ : ∃ d, c.period * d + (t + 1) % c.period = t + 1 :=
    ⟨(t + 1) / c.period, Nat.div_add_mod _ _⟩
  have hle : (t + 1) % c.period ≤ c.offset + c.period :=
    le_trans (Nat.le_of_lt hu_lt) (Nat.le_add_left c.period c.offset)
  have harith : t + 1 + (c.offset + c.period - (t + 1) % c.period) =
      c.offset + c.period * (d + 1) := by
    calc t + 1 + (c.offset + c.period - (t + 1) % c.period)
        = c.period * d + (t + 1) % c.period +
            (c.offset + c.period - (t + 1) % c.period) := by rw [hd]
      _ = c.period * d +
            ((t + 1) % c.period + (c.offset + c.period - (t + 1) % c.period)) := by
          rw [Nat.add_assoc]
      _ = c.period * d + (c.offset + c.period) := by rw [Nat.add_sub_cancel' hle]
      _ = c.offset + c.period * (d + 1) := by ring
  rw [harith, Nat.add_mul_mod_self_left]

/-- C5: for an enabled job whose schedule has N missed fire slots between
its pending next_fire and the wake-up time now (N at least 1), the tick at
now dispatches exactly one run, and the job is rescheduled to a valid fire
slot strictly after now — skip-to-next, never N backlogged runs. -/
theorem gap_skip_to_next (tj : TriggerJob) (now N : Nat)
    (hen : tj.enabled = true)
    (hN : (slotsIn tj.sched tj.next_fire now).length = N)
    (hN1 : 1 ≤ N) :
    (tickJob now tj).2 = [tj.next_fire] ∧
    (tickJob now tj).2.length = 1 ∧
    now < (tickJob now tj).1.next_fire ∧
    (0 < tj.sched.period →
      (tickJob now tj).1.next_fire % tj.sched.period =
        tj.sched.offset % tj.sched.period) := by
  have hdue : tj.next_fire ≤ now := by
    have hne : slotsIn tj.sched tj.next_fire now ≠ [] := by
      intro h
      rw [h] at hN
      simp at hN
      omega
    obtain ⟨s, hs⟩ := List.exists_mem_of_ne_nil _ hne
    unfold slotsIn at hs
    rw [List.mem_filter] at hs
    obtain ⟨hrange, hcond⟩ := hs
    rw [List.mem_range] at hrange
    have h1 : tj.next_fire ≤ s :=
      of_decide_eq_true ((Bool.and_eq_true _ _).mp hcond).1
    omega
  have htick : tickJob now tj =
      ({ tj with next_fire := tj.sched.nextAfter now }, [tj.next_fire]) := by
    unfold tickJob
    rw [if_neg (by simp [hen]), if_pos hdue]
  rw [htick]
  exact ⟨rfl, rfl, nextAfter_gt tj.sched now, fun hp => nextAfter_mod tj.sched now hp⟩

/-- C5 witness: a job firing every 10 ticks at offset 2 that missed the 5
slots 2, 12, 22, 32, 42 during an outage ending at time 51 dispatches one
run on wake-up and is rescheduled past 51 onto a valid slot. -/
theorem gap_skip_to_next_witness :
    (tickJob 51 ⟨⟨10, 2⟩, true, 2⟩).2 = [2] ∧
    (tickJob 51 ⟨⟨10, 2⟩, true, 2⟩).2.length = 1 ∧
    51 < (tickJob 51 ⟨⟨10, 2⟩, true, 2⟩).1.next_fire ∧
    (0 < (10 : Nat) →
      (tickJob 51 ⟨⟨10, 2⟩, true, 2⟩).1.next_fire % 10 = 2 % 10) :=
  gap_skip_to_next ⟨⟨10, 2⟩, true, 2⟩ 51 5 rfl (by decide) (by decide)

theorem rowsFor_map_replace (b : PriceBar) :
    ∀ store : List PriceBar,
      rowsFor (store.map (fun r => if r.natKey = b.natKey then b else r)) b.natKey =
        List.replicate (keyCount store b.natKey) b := by
  intro store
  induction store with
  | nil => rfl
  | cons r rest ih =>
      simp only [List.map_cons, rowsFor, keyCount] at ih ⊢
      by_cases hk : r.natKey = b.natKey
      · rw [if_pos hk]
        rw [List.filter_cons_of_pos (by simp), List.filter_cons_of_pos (by simp [hk])]
        rw [ih, List.length_cons, List.replicate_succ]
      · rw [if_neg hk]
        rw [List.filter_cons_of_neg (by simp [hk]), List.filter_cons_of_neg (by simp [hk])]
        exact ih

theorem rowsFor_map_replace_other (b : PriceBar) (k : Nat × String × Nat)
    (hk : ¬(k = b.natKey)) :
    ∀ store : List PriceBar,
      rowsFor (store.map (fun r => if r.natKey = b.natKey then b else r)) k =
        rowsFor store k := by
  have hbk : ¬(b.natKey = k) := fun h => hk h.symm
  intro store
  induction store with
  | nil => rfl
  | cons r rest ih =>
      simp only [List.map_cons, rowsFor] at ih ⊢
      by_cases hr : r.natKey = b.natKey
      · rw [if_pos hr]
        rw [List.filter_cons_of_neg (by simp [hbk]),
          List.filter_cons_of_neg (by simp [hr, hbk])]
        exact ih
      · rw [if_neg hr]
        by_cases hrk : r.natKey = k
        · rw [List.filter_cons_of_pos (by simp [hrk]),
            List.filter_cons_of_pos (by simp [hrk]), ih]
        · rw [List.filter_cons_of_neg (by simp [hrk]),
            List.filter_cons_of_neg (by simp [hrk])]
          exact ih

theorem rowsFor_upsertBar_self (store : List PriceBar) (b : PriceBar)
    (h : keyCount store b.natKey ≤ 1) :
    rowsFor (upsertBar store b) b.natKey = [b] := by
  unfold upsertBar
  by_cases hany : store.any (fun r => r.natKey = b.natKey) = true
  · rw [if_pos hany, rowsFor_map_replace]
    obtain ⟨r, hr, hkey⟩ := List.any_eq_true.mp hany
    have hkey' : r.natKey = b.natKey := of_decide_eq_true hkey
    have h1 : 1 ≤ keyCount store b.natKey := by
      have hmem : r ∈ store.filter (fun x => x.natKey = b.natKey) :=
        List.mem_filter.mpr ⟨hr, by simp [hkey']⟩
      exact List.length_pos.mpr (List.ne_nil_of_mem hmem)
    rw [le_antisymm h h1]
    rfl
  · rw [if_neg hany]
    unfold rowsFor
    rw [List.filter_append]
    have hnil : store.filter (fun r => r.natKey = b.natKey) = [] := by
      rw [List.filter_eq_nil_iff]
      intro a ha hcontra
      exact hany (List.any_eq_true.mpr ⟨a, ha, hcontra⟩)
    rw [hnil]
    simp

theorem rowsFor_upsertBar_other (store : List PriceBar) (b : PriceBar)
    (k : Nat × String × Nat) (hk : ¬(k = b.natKey)) :
    rowsFor (upsertBar store b) k = rowsFor store k := by
  unfold upsertBar
  by_cases hany : store.any (fun r => r.natKey = b.natKey) = true
  · rw [if_pos hany]
    exact rowsFor_map_replace_other b k hk store
  · rw [if_neg hany]
    unfold rowsFor
    rw [List.filter_append]
    have hbk : ¬(b.natKey = k) := fun h => hk h.symm
    simp [hbk]

theorem keyCount_upsertBar_le (store : List PriceBar) (b : PriceBar)
    (h : ∀ k, keyCount store k ≤ 1) :
    ∀ k, keyCount (upsertBar store b) k ≤ 1 := by
  intro k
  by_cases hk : k = b.natKey
  · subst hk
    show (rowsFor (upsertBar store b) b.natKey).length ≤ 1
    rw [rowsFor_upsertBar_self store b (h _)]
    simp
  · show (rowsFor (upsertBar store b) k).length ≤ 1
    rw [rowsFor_upsertBar_other store b k hk]
    exact h k

theorem upsert_batch_last (k : Nat × String × Nat) :
    ∀ (bars store : List PriceBar) (b : PriceBar),
      (∀ k', keyCount store k' ≤ 1) →
      (∀ x ∈ bars, x.natKey = k) →
      bars.getLast? = some b →
      rowsFor (upsertPriceBars store bars) k = [b] ∧
      ∀ k', keyCount (upsertPriceBars store bars) k' ≤ 1 := by
  intro bars
  induction bars with
  | nil => intro store b _ _ hlast; simp at hlast
  | cons x rest ih =>
      intro store b huniq hkeys hlast
      cases rest with
      | nil =>
          have hb : b = x := by
            simp [List.getLast?] at hlast
            exact hlast.symm
          subst hb
          have hkx : b.natKey = k := hkeys b (by simp)
          constructor
          · show rowsFor (upsertBar store b) k = [b]
            rw [← hkx]
            exact rowsFor_upsertBar_self store b (huniq _)
          · exact keyCount_upsertBar_le store b huniq
      | cons y rest2 =>
          have hlast2 : (y :: rest2).getLast? = some b := by
            rw [← List.getLast?_cons_cons]
            exact hlast
          exact ih (upsertBar store x) b (keyCount_upsertBar_le store x huniq)
            (fun z hz => hkeys z (List.mem_cons_of_mem _ hz)) hlast2

/-- C4: starting from a store with at most one row per natural key,
upserting any nonempty batch of bars sharing one natural key leaves exactly
one stored row for that key, holding the last bar of the batch, and keeps
every key uniquely addressed. -/
theorem pricebar_upsert_key_unique (store bars : List PriceBar)
    (k : Nat × String × Nat) (b : PriceBar)
    (huniq : ∀ k', keyCount store k' ≤ 1)
    (hkeys : ∀ x ∈ bars, x.natKey = k)
    (hlast : bars.getLast? = some b) :
    keyCount (upsertPriceBars store bars) k = 1 ∧
    rowsFor (upsertPriceBars store bars) k = [b] ∧
    ∀ k', keyCount (upsertPriceBars store bars) k' ≤ 1 := by
  obtain ⟨h1, h2⟩ := upsert_batch_last k bars store b huniq hkeys hlast
  refine ⟨?_, h1, h2⟩
  show (rowsFor (upsertPriceBars store bars) k).length = 1
  rw [h1]
  rfl

/-- C4 witness: upserting the key (1, "1d", 100) twice, with volume 5 then
volume 7, leaves exactly one row, holding volume 7. -/
theorem pricebar_upsert_key_unique_witness :
    keyCount (upsertPriceBars []
        [⟨1, "1d", 100, 1, 2, 0, 1, 5⟩, ⟨1, "1d", 100, 1, 2, 0, 1, 7⟩])
      (1, "1d", 100) = 1 ∧
    rowsFor (upsertPriceBars []
        [⟨1, "1d", 100, 1, 2, 0, 1, 5⟩, ⟨1, "1d", 100, 1, 2, 0, 1, 7⟩])
      (1, "1d", 100) = [⟨1, "1d", 100, 1, 2, 0, 1, 7⟩] ∧
    ∀ k', keyCount (upsertPriceBars []
        [⟨1, "1d", 100, 1, 2, 0, 1, 5⟩, ⟨1, "1d", 100, 1, 2, 0, 1, 7⟩]) k' ≤ 1 :=
  pricebar_upsert_key_unique []
    [⟨1, "1d", 100, 1, 2, 0, 1, 5⟩, ⟨1, "1d", 100, 1, 2, 0, 1, 7⟩]
    (1, "1d", 100) ⟨1, "1d", 100, 1, 2, 0, 1, 7⟩
    (by intro k'; simp [keyCount])
    (by decide)
    rfl

theorem finishFirst_mem (j t : Nat) :
    ∀ (runs : List JobRunRec) (y : JobRunRec), y ∈ finishFirst j t runs →
      y ∈ runs ∨ ∃ x ∈ runs, x.job = j ∧ x.isRunning = true ∧
        y = { x with finish := some t } := by
  intro runs
  induction runs with
  | nil => intro y hy; cases hy
  | cons r rest ih =>
      intro y hy
      by_cases hg : (r.job == j && r.isRunning) = true
      · simp only [finishFirst] at hy
        rw [if_pos hg] at hy
        rcases List.mem_cons.mp hy with rfl | hy2
        · right
          refine ⟨r, List.mem_cons_self r rest, ?_, ((Bool.and_eq_true _ _).mp hg).2, rfl⟩
          have := ((Bool.and_eq_true _ _).mp hg).1
          simpa using this
        · left
          exact List.mem_cons_of_mem r hy2
      · simp only [finishFirst] at hy
        rw [if_neg hg] at hy
        rcases List.mem_cons.mp hy with rfl | hy2
        · left
          exact List.mem_cons_self _ _
        · rcases ih y hy2 with h | ⟨x, hx, hxj, hxr, hxy⟩
          · left
            exact List.mem_cons_of_mem r h
          · right
            exact ⟨x, List.mem_cons_of_mem r hx, hxj, hxr, hxy⟩

theorem timeBounds_mono (t t' : Nat) (runs : List JobRunRec)
    (h : TimeBounds t runs) (hle : t ≤ t') : TimeBounds t' runs := by
  intro r hr
  obtain ⟨h1, h2⟩ := h r hr
  exact ⟨le_trans h1 hle, fun e he => ⟨(h2 e he).1, le_trans (h2 e he).2 hle⟩⟩

theorem timeBounds_finishFirst (j t : Nat) (runs : List JobRunRec)
    (h : TimeBounds t runs) : TimeBounds t (finishFirst j t runs) := by
  intro y hy
  rcases finishFirst_mem j t runs y hy with hmem | ⟨x, hx, _, _, rfl⟩
  · exact h y hmem
  · obtain ⟨h1, _⟩ := h x hx
    refine ⟨h1, fun e he => ?_⟩
    have he' : t = e := by simpa using he
    subst he'
    exact ⟨h1, le_rfl⟩

theorem runsOrdered_finishFirst (policy : Nat → ConcurrencyPolicy) (j t : Nat) :
    ∀ runs : List JobRunRec, RunsOrdered policy runs →
      RunsOrdered policy (finishFirst j t runs) := by
  intro runs
  induction runs with
  | nil => intro h; exact h
  | cons r rest ih =>
      intro h
      obtain ⟨h1, h2⟩ := List.pairwise_cons.mp h
      by_cases hg : (r.job == j && r.isRunning) = true
      · show RunsOrdered policy (finishFirst j t (r :: rest))
        simp only [finishFirst]
        rw [if_pos hg]
        refine List.pairwise_cons.mpr ⟨?_, h2⟩
        intro y hy hjob hpol
        obtain ⟨e, he, _⟩ := h1 y hy hjob hpol
        have hrun : r.finish = none :=
          Option.isNone_iff_eq_none.mp ((Bool.and_eq_true _ _).mp hg).2
        rw [hrun] at he
        simp at he
      · show RunsOrdered policy (finishFirst j t (r :: rest))
        simp only [finishFirst]
        rw [if_neg hg]
        refine List.pairwise_cons.mpr ⟨?_, ih h2⟩
        intro y hy
        rcases finishFirst_mem j t rest y hy with hmem | ⟨x, hx, _, _, rfl⟩
        · exact h1 y hmem
        · intro hjob hpol
          exact h1 x hx hjob hpol

theorem schedStep_inv (policy : Nat → ConcurrencyPolicy) (s : SchedState)
    (ev : SchedEv) (h : SchedInv policy s) :
    SchedInv policy (schedStep policy s ev) := by
  obtain ⟨htime, hord⟩ := h
  cases ev with
  | tick =>
      exact ⟨timeBounds_mono s.time (s.time + 1) s.runs htime (by omega), hord⟩
  | startJob j =>
      simp only [schedStep]
      by_cases hg : policy j = ConcurrencyPolicy.singleton ∧ hasRunning s.runs j = true
      · rw [if_pos hg]
        exact ⟨htime, hord⟩
      · rw [if_neg hg]
        constructor
        · intro r hr
          rcases List.mem_append.mp hr with hr1 | hr2
          · exact htime r hr1
          · have hr' : r = { job := j, start := s.time, finish := none } := by
              simpa using hr2
            subst hr'
            exact ⟨le_rfl, fun e he => by simp at he⟩
        · refine List.pairwise_append.mpr ⟨hord, List.pairwise_singleton _ _, ?_⟩
          intro x hx y hy
          have hy' : y = { job := j, start := s.time, finish := none } := by
            simpa using hy
          subst hy'
          intro hjob hpol
          have hxj : x.job = j := hjob
          have hpols : policy j = ConcurrencyPolicy.singleton := by
            rw [← hxj]
            exact hpol
          have hnr : hasRunning s.runs j = false := by
            cases hb : hasRunning s.runs j with
            | false => rfl
            | true => exact absurd ⟨hpols, hb⟩ hg
          have hxnr : x.isRunning = false := by
            cases hb : x.isRunning with
            | false => rfl
            | true =>
                have hany : s.runs.any (fun r => r.job == j && r.isRunning) = true :=
                  List.any_eq_true.mpr ⟨x, hx, by simp [hxj, hb]⟩
                rw [hasRunning] at hnr
                rw [hany] at hnr
                cases hnr
          obtain ⟨e, he⟩ : ∃ e, x.finish = some e := by
            cases hxf : x.finish with
            | none => simp [JobRunRec.isRunning, hxf] at hxnr
            | some e => exact ⟨e, rfl⟩
          exact ⟨e, he, ((htime x hx).2 e he).2⟩
  | finishJob j =>
      exact ⟨timeBounds_finishFirst j s.time s.runs htime,
        runsOrdered_finishFirst policy j s.time s.runs hord⟩

theorem runSched_inv (policy : Nat → ConcurrencyPolicy) (evs : List SchedEv) :
    SchedInv policy (runSched policy evs) := by
  have hinit : SchedInv policy initState :=
    ⟨fun r hr => (by cases hr), List.Pairwise.nil⟩
  suffices h : ∀ (es : List SchedEv) (s : SchedState), SchedInv policy s →
      SchedInv policy (es.foldl (schedStep policy) s) from h evs initState hinit
  intro es
  induction es with
  | nil => intro s hs; exact hs
  | cons e es ih =>
      intro s hs
      exact ih _ (schedStep_inv policy s e hs)

/-- C1: in every scheduler state reachable by an event trace, a job with
the singleton policy never has two running JobRun records at once, and no
two of its terminal JobRun records have overlapping [start, end] intervals
(sharing more than a boundary instant). -/
theorem singleton_no_overlap (policy : Nat → ConcurrencyPolicy)
    (evs : List SchedEv) (j : Nat)
    (hpol : policy j = ConcurrencyPolicy.singleton) :
    (∀ (i i' : Fin (runSched policy evs).runs.length), i < i' →
      ((runSched policy evs).runs.get i).job = j →
      ((runSched policy evs).runs.get i').job = j →
      ¬(((runSched policy evs).runs.get i).isRunning = true ∧
        ((runSched policy evs).runs.get i').isRunning = true)) ∧
    (∀ (i i' : Fin (runSched policy evs).runs.length), ¬(i = i') →
      ((runSched policy evs).runs.get i).job = j →
      ((runSched policy evs).runs.get i').job = j →
      ∀ e e', ((runSched policy evs).runs.get i).finish = some e →
        ((runSched policy evs).runs.get i').finish = some e' →
        ¬ IntervalsOverlap ((runSched policy evs).runs.get i).start e
          ((runSched policy evs).runs.get i').start e') := by
  obtain ⟨htime, hord⟩ := runSched_inv policy evs
  have hpair := List.pairwise_iff_get.mp hord
  constructor
  · rintro i i' hlt hji hji' ⟨hri, hri'⟩
    obtain ⟨e, he, _⟩ := hpair i i' hlt (by rw [hji, hji'])
      (by rw [hji]; exact hpol)
    have hnone : ((runSched policy evs).runs.get i).finish = none :=
      Option.isNone_iff_eq_none.mp hri
    rw [hnone] at he
    cases he
  · intro i i' hne hji hji' e e' he he' hov
    obtain ⟨hov1, hov2⟩ := hov
    rcases lt_or_gt_of_ne (fun h => hne h) with h | h
    · obtain ⟨e0, he0, hle⟩ := hpair i i' h (by rw [hji, hji'])
        (by rw [hji]; exact hpol)
      rw [he] at he0
      have he0' : e0 = e := (Option.some.inj he0).symm
      subst he0'
      exact absurd hov2 (not_lt.mpr hle)
    · obtain ⟨e0, he0, hle⟩ := hpair i' i h (by rw [hji, hji'])
        (by rw [hji']; exact hpol)
      rw [he'] at he0
      have he0' : e0 = e' := (Option.some.inj he0).symm
      subst he0'
      exact absurd hov1 (not_lt.mpr hle)

/-- C1 witness: a trace with two consecutive completed runs of singleton
job 0 produces the runs [0,1] and [2,3], and the theorem applies to it. -/
theorem singleton_no_overlap_witness :
    (runSched (fun _ => ConcurrencyPolicy.singleton)
        [SchedEv.startJob 0, SchedEv.tick, SchedEv.finishJob 0, SchedEv.tick,
         SchedEv.startJob 0, SchedEv.tick, SchedEv.finishJob 0]).runs =
      [⟨0, 0, some 1⟩, ⟨0, 2, some 3⟩] ∧
    ((∀ (i i' : Fin (runSched (fun _ => ConcurrencyPolicy.singleton)
        [SchedEv.startJob 0, SchedEv.tick, SchedEv.finishJob 0, SchedEv.tick,
         SchedEv.startJob 0, SchedEv.tick, SchedEv.finishJob 0]).runs.length),
      i < i' →
      ((runSched (fun _ => ConcurrencyPolicy.singleton)
        [SchedEv.startJob 0, SchedEv.tick, SchedEv.finishJob 0, SchedEv.tick,
         SchedEv.startJob 0, SchedEv.tick, SchedEv.finishJob 0]).runs.get i).job = 0 →
      ((runSched (fun _ => ConcurrencyPolicy.singleton)
        [SchedEv.startJob 0, SchedEv.tick, SchedEv.finishJob 0, SchedEv.tick,
         SchedEv.startJob 0, SchedEv.tick, SchedEv.finishJob 0]).runs.get i').job = 0 →
      ¬(((runSched (fun _ => ConcurrencyPolicy.singleton)
        [SchedEv.startJob 0, SchedEv.tick, SchedEv.finishJob 0, SchedEv.tick,
         SchedEv.startJob 0, SchedEv.tick, SchedEv.finishJob 0]).runs.get i).isRunning = true ∧
        ((runSched (fun _ => ConcurrencyPolicy.singleton)
        [SchedEv.startJob 0, SchedEv.tick, SchedEv.finishJob 0, SchedEv.tick,
         SchedEv.startJob 0, SchedEv.tick, SchedEv.finishJob 0]).runs.get i').isRunning = true)) ∧
    (∀ (i i' : Fin (runSched (fun _ => ConcurrencyPolicy.singleton)
        [SchedEv.startJob 0, SchedEv.tick, SchedEv.finishJob 0, SchedEv.tick,
         SchedEv.startJob 0, SchedEv.tick, SchedEv.finishJob 0]).runs.length),
      ¬(i = i') →
      ((runSched (fun _ => ConcurrencyPolicy.singleton)
        [SchedEv.startJob 0, SchedEv.tick, SchedEv.finishJob 0, SchedEv.tick,
         SchedEv.startJob 0, SchedEv.tick, SchedEv.finishJob 0]).runs.get i).job = 0 →
      ((runSched (fun _ => ConcurrencyPolicy.singleton)
        [SchedEv.startJob 0, SchedEv.tick, SchedEv.finishJob 0, SchedEv.tick,
         SchedEv.startJob 0, SchedEv.tick, SchedEv.finishJob 0]).runs.get i').job = 0 →
      ∀ e e', ((runSched (fun _ => ConcurrencyPolicy.singleton)
        [SchedEv.startJob 0, SchedEv.tick, SchedEv.finishJob 0, SchedEv.tick,
         SchedEv.startJob 0, SchedEv.tick, SchedEv.finishJob 0]).runs.get i).finish = some e →
        ((runSched (fun _ => ConcurrencyPolicy.singleton)
        [SchedEv.startJob 0, SchedEv.tick, SchedEv.finishJob 0, SchedEv.tick,
         SchedEv.startJob 0, SchedEv.tick, SchedEv.finishJob 0]).runs.get i').finish = some e' →
        ¬ IntervalsOverlap ((runSched (fun _ => ConcurrencyPolicy.singleton)
        [SchedEv.startJob 0, SchedEv.tick, SchedEv.finishJob 0, SchedEv.tick,
         SchedEv.startJob 0, SchedEv.tick, SchedEv.finishJob 0]).runs.get i).start e
          ((runSched (fun _ => ConcurrencyPolicy.singleton)
        [SchedEv.startJob 0, SchedEv.tick, SchedEv.finishJob 0, SchedEv.tick,
         SchedEv.startJob 0, SchedEv.tick, SchedEv.finishJob 0]).runs.get i').start e')) :=
  ⟨rfl, singleton_no_overlap (fun _ => ConcurrencyPolicy.singleton)
    [SchedEv.startJob 0, SchedEv.tick, SchedEv.finishJob 0, SchedEv.tick,
     SchedEv.startJob 0, SchedEv.tick, SchedEv.finishJob 0] 0 rfl⟩

end Wombat
